import Mathlib

/-!
CiphersCPP: the Vigenere cipher and its text formatting (`vigenere.cpp`).

A shallow embedding of `change_case`, `break_lines`, `format_text`, `parse_key`
and `vigenere`, followed by the properties established about them.

Modelling conventions
* A `std::string` is a `List Int` of character codes (a `char` promoted to `int`,
  as every comparison and every arithmetic expression of the source does).
* An `int` is an `Int`. `%` and `/` are the truncating C++ operators
  (`Int.tmod`, `Int.tdiv`) and fail (`none`) on a zero divisor.
* The arithmetic on key elements, which come from the user without any bound
  (`x - 65 + key.at(i % n)` in `vigenere`, `stoi(substring) * sign` in `parse_key`),
  is 32-bit: a result outside the `int` range wraps around (`wrap_int`), as it
  does in the compiled program.
* Every other `int` (the letter counters, lengths, the block and column
  parameters) is unbounded: `main` starts the letter counter at 0 and it grows
  by one per letter, so it leaves the `int` range only after more than
  2147483647 letters in one run.
* `vector::at` fails (`none`) on an index out of range, a negative `int` index
  included (it converts to a huge `size_t`).
* Code that can fail returns an `Option`; the reference parameter `int &i` of
  `vigenere` is passed in and returned.
-/

namespace CiphersCPP

/-! ## Primitive operations -/

/-- The C++ expression `a % b` on `int`: truncated remainder, undefined on `b = 0`. -/
def c_mod (a b : Int) : Option Int :=
  if b = 0 then none else some (a.tmod b)

/-- The C++ expression `a / b` on `int`: truncated quotient, undefined on `b = 0`. -/
def c_div (a b : Int) : Option Int :=
  if b = 0 then none else some (a.tdiv b)

/-- The call `key.at(idx)` with an `int` index: throws unless `0 <= idx < size`. -/
def vec_at (key : List Int) (idx : Int) : Option Int :=
  if idx < 0 then none else key[idx.toNat]?

/-- A 32-bit `int` result: values outside `-2147483648 .. 2147483647` wrap around. -/
def wrap_int (v : Int) : Int :=
  (v + 2147483648) % 4294967296 - 2147483648

/-- The test `(65 <= x && x <= 90) || (97 <= x && x <= 122)` of the source. -/
def is_letter (x : Int) : Bool :=
  (decide (65 ≤ x) && decide (x ≤ 90)) || (decide (97 ≤ x) && decide (x ≤ 122))

/-- A string literal as the list of its character codes. -/
def str (s : String) : List Int :=
  s.toList.map fun ch => (ch.toNat : Int)

/-! ## `vigenere` -/

/-- The function `vigenere(text, key, i)`: the ciphered text and the final value of `i`. -/
def vigenere : List Int → List Int → Int → Option (List Int × Int)
  | [], _, i => some ([], i)
  | x :: rest, key, i =>
    if 65 ≤ x ∧ x ≤ 90 then
      (c_mod i key.length).bind fun r =>
      (vec_at key r).bind fun k =>
      (vigenere rest key (i + 1)).map fun res =>
        ((65 + ((wrap_int (x - 65 + k)).tmod 26 + 26).tmod 26) :: res.1, res.2)
    else if 97 ≤ x ∧ x ≤ 122 then
      (c_mod i key.length).bind fun r =>
      (vec_at key r).bind fun k =>
      (vigenere rest key (i + 1)).map fun res =>
        ((97 + ((wrap_int (x - 97 + k)).tmod 26 + 26).tmod 26) :: res.1, res.2)
    else
      (vigenere rest key i).map fun res => (x :: res.1, res.2)

/-- Element-wise negation of a key, as `parse_key` does under `--decode`. -/
def negate (key : List Int) : List Int :=
  key.map fun k => -k

/-- The key element `key[i mod len(key)]` used at counter value `i`. -/
def key_shift (key : List Int) (i : Int) : Int :=
  key.getD (i % key.length).toNat 0

/-- The character written for `x` at counter `i` (total form of the loop body). -/
def cipher_char (key : List Int) (i x : Int) : Int :=
  if 65 ≤ x ∧ x ≤ 90 then 65 + wrap_int (x - 65 + key_shift key i) % 26
  else if 97 ≤ x ∧ x ≤ 122 then 97 + wrap_int (x - 97 + key_shift key i) % 26
  else x

/-- Total form of the `vigenere` loop, valid for a non-empty key and `i >= 0`. -/
def cipher_text (key : List Int) : List Int → Int → List Int
  | [], _ => []
  | x :: rest, i =>
    cipher_char key i x :: cipher_text key rest (if is_letter x then i + 1 else i)

/-- Number of ASCII letters of a text. -/
def letter_count (text : List Int) : Int :=
  (text.countP fun x => is_letter x : Nat)

/-! ## `change_case` -/

/-- The library call `toupper` in the "C" locale (the program never sets another). -/
def toupper (x : Int) : Int :=
  if 97 ≤ x ∧ x ≤ 122 then x - 32 else x

/-- The library call `tolower` in the "C" locale. -/
def tolower (x : Int) : Int :=
  if 65 ≤ x ∧ x ≤ 90 then x + 32 else x

/-- The function `change_case(text, case_flag)`; `UPPERCASE = 1`, `LOWERCASE = 0`,
`DEFAULTCASE = -1`. -/
def change_case (text : List Int) (case_flag : Int) : List Int :=
  if case_flag = 1 then text.map toupper
  else if case_flag = 0 then text.map tolower
  else text

/-! ## `break_lines` -/

/-- The local variables of `break_lines` that live across loop iterations. -/
structure WrapState where
  output : List Int
  word : List Int
  sep : Int
  i : Int
deriving DecidableEq, Repr

/-- One iteration of the loop of `break_lines` on the character `x`. -/
def break_lines_step (cols : Int) (st : WrapState) (x : Int) : WrapState :=
  if x = 10 ∨ x = 32 ∨ x = 45 ∨ x = 47 then
    let n : Int := st.word.length
    if st.i = 0 then
      { output := st.output ++ st.word, word := [], sep := x, i := st.i + n }
    else if st.i + n < cols then
      { output := st.output ++ (st.sep :: st.word), word := [], sep := x, i := st.i + (n + 1) }
    else if st.sep = 32 then
      { output := st.output ++ (10 :: st.word), word := [], sep := x, i := n }
    else if st.i < cols then
      { output := st.output ++ (st.sep :: 10 :: st.word), word := [], sep := x, i := n }
    else
      { output := st.output ++ (10 :: st.sep :: st.word), word := [], sep := x,
        i := if st.sep = 10 then n else n + 1 }
  else
    { st with word := st.word ++ [x] }

/-- The function `break_lines(text, cols)`. The variable `sep` is read only once `i` is
non-zero, that is after a separator has been stored in it, so its initial value is
immaterial. -/
def break_lines (text : List Int) (cols : Int) : List Int :=
  ((text ++ [32]).foldl (break_lines_step cols) ⟨[], [], 0, 0⟩).output ++ [10]

/-- The separator test `x == 10 || x == 32 || x == 45 || x == 47` of `break_lines`; the
words of a text are its maximal runs of other characters. -/
def is_separator (x : Int) : Bool :=
  x == 10 || x == 32 || x == 45 || x == 47

/-- Width invariant of an output under construction: every run of `out` without a newline
has at most `bound` characters, and every such run at the end of `out` at most `i`. -/
def lines_within (bound i : Int) (out : List Int) : Prop :=
  (∀ seg, seg <:+: out → (10 : Int) ∉ seg → (seg.length : Int) ≤ bound) ∧
  (∀ seg, seg <:+ out → (10 : Int) ∉ seg → (seg.length : Int) ≤ i)

/-! ## `format_text` -/

/-- What the block loop of `format_text` appends after a letter, `i` being the counter
already incremented: nothing, a space or a newline. -/
def block_break (block_size blocks_per_row i : Int) : Option (List Int) :=
  if 0 < block_size then
    (c_mod i block_size).bind fun r =>
      if r = 0 then
        (c_div i block_size).bind fun q =>
        (c_mod q blocks_per_row).bind fun r2 =>
          if r2 = 0 then some [10] else some [32]
      else some []
  else some []

/-- The block loop of `format_text` from counter value `i`. -/
def format_loop (block_size blocks_per_row : Int) : List Int → Int → Option (List Int)
  | [], _ => some []
  | x :: rest, i =>
    if (65 ≤ x ∧ x ≤ 90) ∨ (97 ≤ x ∧ x ≤ 122) then
      (block_break block_size blocks_per_row (i + 1)).bind fun brk =>
      (format_loop block_size blocks_per_row rest (i + 1)).map fun out => x :: (brk ++ out)
    else
      format_loop block_size blocks_per_row rest i

/-- The function `format_text(text, case_flag, block_size, cols, start)`. -/
def format_text (text : List Int) (case_flag block_size cols start : Int) :
    Option (List Int) :=
  let text := change_case text case_flag
  if block_size = 0 then some (break_lines text cols)
  else
    (if 0 < block_size then c_div (cols + 1) (block_size + 1) else some 1).bind
      fun blocks_per_row =>
        format_loop (if block_size < 0 then cols else block_size) blocks_per_row text start

/-! ## `parse_key` -/

/-- Outcome of `std::stoi`: a value, or one of its two exceptions. -/
inductive StoiResult where
  | value (v : Int)
  | invalid_argument
  | out_of_range
deriving DecidableEq, Repr

/-- The library predicate `isspace` in the "C" locale. -/
def isspace (x : Int) : Bool :=
  decide (x = 32) || (decide (9 ≤ x) && decide (x ≤ 13))

/-- The library predicate `isdigit`. -/
def isdigit (x : Int) : Bool :=
  decide (48 ≤ x) && decide (x ≤ 57)

/-- The value of a run of decimal digit characters, most significant first. -/
def digits_value (digits : List Int) : Int :=
  digits.foldl (fun acc d => 10 * acc + (d - 48)) 0

/-- The conversion step of `std::stoi` once the sign and the run of digits are read: no
digit gives `invalid_argument`, a value outside the 32-bit `int` range `out_of_range`. -/
def stoi_result (negative : Bool) (digits : List Int) : StoiResult :=
  if digits = [] then StoiResult.invalid_argument
  else
    let v := if negative then -digits_value digits else digits_value digits
    if v < -2147483648 ∨ 2147483647 < v then StoiResult.out_of_range
    else StoiResult.value v

/-- The call `std::stoi(s)` (base 10): leading white space is skipped, an optional sign
and the longest run of digits are read and what follows is ignored. -/
def stoi (s : List Int) : StoiResult :=
  let s1 := s.dropWhile isspace
  let s2 := if s1.head? = some 45 ∨ s1.head? = some 43 then s1.tail else s1
  stoi_result (decide (s1.head? = some 45)) (s2.takeWhile isdigit)

/-- The substrings that `while (getline(string_stream, substring, ','))` yields on the rest
of the stream, `cur` being the characters already extracted for the current one: end of
stream ends a non-empty substring, and ends the loop when nothing was extracted. -/
def getline_tokens : List Int → List Int → List (List Int)
  | [], cur => if cur = [] then [] else [cur]
  | x :: rest, cur =>
    if x = 44 then cur :: getline_tokens rest [] else getline_tokens rest (cur ++ [x])

/-- The inner loop of `parse_key` over the characters of a substring that `stoi` rejected. -/
def letter_values (sign : Int) : List Int → List Int
  | [] => []
  | x :: rest =>
    if 65 ≤ x ∧ x ≤ 90 then ((x - 65) * sign) :: letter_values sign rest
    else if 97 ≤ x ∧ x ≤ 122 then ((x - 97) * sign) :: letter_values sign rest
    else letter_values sign rest

/-- The body of the `while` loop of `parse_key` over the substrings; `out_of_range` is not
caught by `catch (invalid_argument)` and ends the program (`none`). -/
def parse_key_loop (sign : Int) : List (List Int) → Option (List Int)
  | [] => some []
  | substring :: rest =>
    match stoi substring with
    | StoiResult.value v =>
      (parse_key_loop sign rest).map fun key => wrap_int (v * sign) :: key
    | StoiResult.invalid_argument =>
      (parse_key_loop sign rest).map fun key => letter_values sign substring ++ key
    | StoiResult.out_of_range => none

/-- The function `parse_key(keystring, decode)`. -/
def parse_key (keystring : List Int) (decode : Bool) : Option (List Int) :=
  parse_key_loop (if decode then -1 else 1) (getline_tokens keystring [])

/-! ## Descriptions of the block layout -/

/-- The separator rule in the words of the specification: after the `k`-th letter (`k`
counted from 1) a separator is due when `k` is a multiple of the block size `b`, a newline
when the number `k / b` of blocks completed so far is a multiple of `blocks_per_row`, a
single space otherwise; no separator anywhere else. -/
def separator_after (b blocks_per_row k : Int) : List Int :=
  if k % b = 0 then
    if (k / b) % blocks_per_row = 0 then [10] else [32]
  else []

/-- Every letter followed by the separator due after it, `k` letters having gone before. -/
def grouped_from (b blocks_per_row : Int) : Int → List Int → List Int
  | _, [] => []
  | k, x :: rest =>
    x :: (separator_after b blocks_per_row (k + 1)
      ++ grouped_from b blocks_per_row (k + 1) rest)

/-- The layout of letters from the position `u` letters into a block and `v` blocks into
a row. -/
def row_layout (b blocks_per_row : Int) : Int → Int → List Int → List Int
  | _, _, [] => []
  | u, v, x :: rest =>
    if u + 1 < b then x :: row_layout b blocks_per_row (u + 1) v rest
    else if v + 1 < blocks_per_row then x :: 32 :: row_layout b blocks_per_row 0 (v + 1) rest
    else x :: 10 :: row_layout b blocks_per_row 0 0 rest

/-- Segments measured by `m`: every segment but the last fills the capacity `cap`, the
first one counted from `u`, and the last one does not exceed it. -/
def segments_ok (m : List Int → Int) (cap : Int) : Int → List (List Int) → Prop
  | _, [] => False
  | u, [h] => u + m h ≤ cap
  | u, h :: t :: ts => u + m h = cap ∧ segments_ok m cap 0 (t :: ts)

/-! ## Description of key strings -/

/-- A token of a key string as the specification describes it: a signed base-10 integer,
given by its sign characters and its decimal digits (most significant first), or a run of
ASCII letters. -/
inductive KeyToken where
  | number (sign : List Int) (digits : List Nat)
  | letters (run : List Int)

/-- The integer a sign and a list of decimal digits denote. -/
def number_value (sign : List Int) (digits : List Nat) : Int :=
  if sign = [45] then -((Nat.ofDigits 10 digits.reverse : Nat) : Int)
  else ((Nat.ofDigits 10 digits.reverse : Nat) : Int)

/-- The zero-based position of a letter in the alphabet, case-insensitively. -/
def alphabet_position (x : Int) : Int :=
  (((str "ABCDEFGHIJKLMNOPQRSTUVWXYZ").indexOf (toupper x) : Nat) : Int)

namespace KeyToken

/-- A number token has no sign, `+` or `-`, at least one digit, only digits below ten and a
value that fits in a 32-bit `int`; a letter token holds ASCII letters only. -/
def well_formed : KeyToken → Bool
  | number sign digits =>
    (sign == [] || sign == [43] || sign == [45]) && !digits.isEmpty
      && digits.all (fun d => decide (d < 10))
      && decide (-2147483648 ≤ number_value sign digits)
      && decide (number_value sign digits ≤ 2147483647)
  | letters run => run.all is_letter

/-- The characters of a token. -/
def chars : KeyToken → List Int
  | number sign digits => sign ++ digits.map fun (d : Nat) => 48 + (d : Int)
  | letters run => run

/-- The key elements a token stands for. -/
def key_values : KeyToken → List Int
  | number sign digits => [number_value sign digits]
  | letters run => run.map alphabet_position

end KeyToken

/-- The key string made of the given tokens, separated by commas. -/
def key_string (tokens : List KeyToken) : List Int :=
  List.intercalate [44] (tokens.map KeyToken.chars)

/-! ## Arithmetic lemmas -/

theorem tmod_of_neg (a b : Int) (ha : a < 0) (hb : 0 < b) : a.tmod b = -((-a) % b) := by
  obtain ⟨n, rfl⟩ := Int.eq_negSucc_of_lt_zero ha
  obtain ⟨m, rfl⟩ := Int.eq_ofNat_of_zero_le (Int.le_of_lt hb)
  show -((n.succ % m : Nat) : Int) = _
  simp [Int.neg_negSucc]

theorem double_tmod (a : Int) : (a.tmod 26 + 26).tmod 26 = a % 26 := by
  rcases Int.lt_or_le a 0 with h | h
  · rw [tmod_of_neg a 26 h (by omega), Int.tmod_eq_emod (by omega) (by omega)]
    omega
  · rw [Int.tmod_eq_emod h (by omega), Int.tmod_eq_emod (by omega) (by omega)]
    omega

theorem is_letter_iff (x : Int) :
    is_letter x = true ↔ (65 ≤ x ∧ x ≤ 90) ∨ (97 ≤ x ∧ x ≤ 122) := by
  simp [is_letter]

theorem key_lookup (key : List Int) (i : Int) (hk : key ≠ []) (hi : 0 ≤ i) :
    (c_mod i key.length).bind (vec_at key) = some (key_shift key i) := by
  have hlen : 0 < key.length := List.length_pos.mpr hk
  have hpos : (0 : Int) < key.length := by exact_mod_cast hlen
  have h0 : (key.length : Int) ≠ 0 := by omega
  have hm0 : 0 ≤ i % (key.length : Int) := Int.emod_nonneg _ h0
  have hm1 : i % (key.length : Int) < key.length := Int.emod_lt_of_pos _ hpos
  have hlt : (i % (key.length : Int)).toNat < key.length := by omega
  simp only [c_mod, h0, if_false, Option.some_bind, vec_at, key_shift]
  rw [Int.tmod_eq_emod hi (by omega)]
  simp [List.getD_eq_getElem?_getD, not_lt.mpr hm0, List.getElem?_eq_getElem hlt]

theorem vigenere_eq (key : List Int) (hk : key ≠ []) :
    ∀ (text : List Int) (i : Int), 0 ≤ i →
      vigenere text key i = some (cipher_text key text i, i + letter_count text) := by
  intro text
  induction text with
  | nil => intro i _; simp [vigenere, cipher_text, letter_count]
  | cons x rest ih =>
    intro i hi
    have hl := key_lookup key i hk hi
    by_cases hu : 65 ≤ x ∧ x ≤ 90
    · have hlet : is_letter x = true := (is_letter_iff x).mpr (Or.inl hu)
      rw [vigenere, if_pos hu]
      rw [Option.bind_eq_some] at hl
      obtain ⟨r, hr, hk2⟩ := hl
      simp only [hr, hk2, Option.some_bind, ih (i + 1) (by omega), Option.map_some']
      simp [cipher_text, cipher_char, hu, hlet, double_tmod, letter_count, List.countP_cons]
      omega
    · by_cases hlo : 97 ≤ x ∧ x ≤ 122
      · have hlet : is_letter x = true := (is_letter_iff x).mpr (Or.inr hlo)
        rw [vigenere, if_neg hu, if_pos hlo]
        rw [Option.bind_eq_some] at hl
        obtain ⟨r, hr, hk2⟩ := hl
        simp only [hr, hk2, Option.some_bind, ih (i + 1) (by omega), Option.map_some']
        simp [cipher_text, cipher_char, hu, hlo, hlet, double_tmod, letter_count,
          List.countP_cons]
        omega
      · have hlet : is_letter x = false := by
          rw [Bool.eq_false_iff]; intro h
          rcases (is_letter_iff x).mp h with h | h
          · exact hu h
          · exact hlo h
        rw [vigenere, if_neg hu, if_neg hlo]
        simp [ih i hi, cipher_text, cipher_char, hu, hlo, hlet, letter_count, List.countP_cons]

/-! ## Properties of the total form -/

theorem is_letter_false_iff (x : Int) :
    is_letter x = false ↔ ¬(65 ≤ x ∧ x ≤ 90) ∧ ¬(97 ≤ x ∧ x ≤ 122) := by
  rw [← Bool.not_eq_true, is_letter_iff]; tauto

theorem wrap_int_of_fits (v : Int) (hlo : -2147483648 ≤ v) (hhi : v ≤ 2147483647) :
    wrap_int v = v := by
  unfold wrap_int
  omega

theorem cipher_char_upper (key : List Int) (i x : Int) (h : 65 ≤ x ∧ x ≤ 90) :
    cipher_char key i x = 65 + wrap_int (x - 65 + key_shift key i) % 26 := by
  simp [cipher_char, h]

theorem cipher_char_lower (key : List Int) (i x : Int) (h : 97 ≤ x ∧ x ≤ 122) :
    cipher_char key i x = 97 + wrap_int (x - 97 + key_shift key i) % 26 := by
  have h2 : ¬(65 ≤ x ∧ x ≤ 90) := by omega
  simp [cipher_char, h, h2]

theorem key_shift_bounds (key : List Int) (lo hi : Int) (hlo : lo ≤ 0) (hhi : 0 ≤ hi)
    (h : ∀ k ∈ key, lo ≤ k ∧ k ≤ hi) (i : Int) :
    lo ≤ key_shift key i ∧ key_shift key i ≤ hi := by
  unfold key_shift
  rw [List.getD_eq_getElem?_getD]
  cases hget : key[(i % (key.length : Int)).toNat]? with
  | none => exact ⟨hlo, hhi⟩
  | some k => exact h k (List.getElem?_mem hget)

theorem cipher_char_other (key : List Int) (i x : Int) (h : is_letter x = false) :
    cipher_char key i x = x := by
  obtain ⟨h1, h2⟩ := (is_letter_false_iff x).mp h
  simp [cipher_char, h1, h2]

theorem alphabet_position_upper (x : Int) (h1 : 65 ≤ x) (h2 : x ≤ 90) :
    alphabet_position x = x - 65 := by
  interval_cases x <;> rfl

theorem alphabet_position_lower (x : Int) (h1 : 97 ≤ x) (h2 : x ≤ 122) :
    alphabet_position x = x - 97 := by
  interval_cases x <;> rfl

theorem digits_value_snoc (ds : List Int) (d : Int) :
    digits_value (ds ++ [d]) = 10 * digits_value ds + (d - 48) := by
  simp [digits_value, List.foldl_append]

theorem digits_value_chars (digits : List Nat) :
    digits_value (digits.map fun (d : Nat) => 48 + (d : Int))
      = ((Nat.ofDigits 10 digits.reverse : Nat) : Int) := by
  induction digits using List.reverseRecOn with
  | nil => simp [digits_value]
  | append_singleton ds d ih =>
    rw [List.map_append, List.map_singleton, digits_value_snoc, ih, List.reverse_append,
      List.reverse_singleton, List.singleton_append, Nat.ofDigits_cons]
    push_cast
    ring

theorem takeWhile_isdigit_chars (digits : List Nat) (h : ∀ d ∈ digits, d < 10) :
    (digits.map fun (d : Nat) => 48 + (d : Int)).takeWhile isdigit
      = digits.map fun (d : Nat) => 48 + (d : Int) := by
  rw [List.takeWhile_eq_self_iff]
  intro c hc
  obtain ⟨d, hd, rfl⟩ := List.mem_map.mp hc
  have := h d hd
  simp [isdigit]
  omega

theorem stoi_signed (c : Int) (r : List Int) (hc : c = 45 ∨ c = 43) :
    stoi (c :: r) = stoi_result (decide (c = 45)) (r.takeWhile isdigit) := by
  have hsp : isspace c = false := by rcases hc with rfl | rfl <;> decide
  simp [stoi, List.dropWhile_cons, hsp, hc]

theorem stoi_unsigned (c : Int) (r : List Int) (hsp : isspace c = false) (h45 : c ≠ 45)
    (h43 : c ≠ 43) :
    stoi (c :: r) = stoi_result false ((c :: r).takeWhile isdigit) := by
  simp [stoi, List.dropWhile_cons, hsp, h45, h43]

theorem stoi_number (sign : List Int) (digits : List Nat)
    (hwf : (KeyToken.number sign digits).well_formed = true) :
    stoi (KeyToken.number sign digits).chars
      = StoiResult.value (number_value sign digits) := by
  simp only [KeyToken.well_formed, Bool.and_eq_true, Bool.or_eq_true, beq_iff_eq,
    Bool.not_eq_true', List.isEmpty_eq_false, List.all_eq_true, decide_eq_true_eq] at hwf
  obtain ⟨⟨⟨⟨hsign, hne⟩, hdig⟩, hlo⟩, hhi⟩ := hwf
  have htake := takeWhile_isdigit_chars digits hdig
  have hval := digits_value_chars digits
  have hnil : (List.map (fun (d : Nat) => 48 + (d : Int)) digits) ≠ [] := by simpa using hne
  rcases hsign with (rfl | rfl) | rfl
  · obtain ⟨d0, ds, rfl⟩ := List.exists_cons_of_ne_nil hne
    have hd0 : d0 < 10 := hdig d0 (List.mem_cons_self _ _)
    have hsp : isspace (48 + (d0 : Int)) = false := by simp [isspace]; omega
    have hv : number_value [] (d0 :: ds)
        = ((Nat.ofDigits 10 (d0 :: ds).reverse : Nat) : Int) := by
      simp [number_value]
    rw [hv] at hlo hhi ⊢
    simp only [KeyToken.chars, List.nil_append, List.map_cons] at htake hval hnil ⊢
    rw [stoi_unsigned _ _ hsp (by omega) (by omega), htake, stoi_result, if_neg hnil]
    simp only [Bool.false_eq_true, if_false, hval]
    rw [if_neg (by omega)]
  · have hv : number_value [43] digits = ((Nat.ofDigits 10 digits.reverse : Nat) : Int) := by
      simp [number_value]
    rw [hv] at hlo hhi ⊢
    simp only [KeyToken.chars, List.singleton_append]
    rw [stoi_signed _ _ (Or.inr rfl), htake, stoi_result, if_neg hnil]
    simp only [show ¬((43 : Int) = 45) by decide, decide_False, Bool.false_eq_true, if_false,
      hval]
    rw [if_neg (by omega)]
  · have hv : number_value [45] digits = -((Nat.ofDigits 10 digits.reverse : Nat) : Int) := by
      simp [number_value]
    rw [hv] at hlo hhi ⊢
    simp only [KeyToken.chars, List.singleton_append]
    rw [stoi_signed _ _ (Or.inl rfl), htake, stoi_result, if_neg hnil]
    simp only [decide_True, if_true, hval]
    rw [if_neg (by omega)]

theorem stoi_letters (run : List Int) (h : ∀ x ∈ run, is_letter x = true) :
    stoi run = StoiResult.invalid_argument := by
  cases run with
  | nil => rfl
  | cons x r =>
    have hx := (is_letter_iff x).mp (h x (List.mem_cons_self _ _))
    have hsp : isspace x = false := by simp [isspace]; omega
    have hd : isdigit x = false := by simp [isdigit]; omega
    rw [stoi_unsigned _ _ hsp (by omega) (by omega)]
    simp [stoi_result, List.takeWhile_cons, hd]

theorem letter_values_letters (sign : Int) (run : List Int) (h : ∀ x ∈ run, is_letter x = true) :
    letter_values sign run = run.map fun x => alphabet_position x * sign := by
  induction run with
  | nil => rfl
  | cons x r ih =>
    have hr := ih fun y hy => h y (List.mem_cons_of_mem _ hy)
    rcases (is_letter_iff x).mp (h x (List.mem_cons_self _ _)) with hx | hx
    · rw [letter_values, if_pos hx, hr, List.map_cons, alphabet_position_upper x hx.1 hx.2]
    · rw [letter_values, if_neg (by omega), if_pos hx, hr, List.map_cons,
        alphabet_position_lower x hx.1 hx.2]

theorem parse_key_loop_token (sign : Int) (t : KeyToken) (hwf : t.well_formed = true)
    (hs : sign = 1 ∨ (sign = -1 ∧ (-2147483648 : Int) ∉ t.key_values))
    (rest : List (List Int)) :
    parse_key_loop sign (t.chars :: rest)
      = (parse_key_loop sign rest).map fun key =>
          (t.key_values.map fun v => v * sign) ++ key := by
  cases t with
  | number sg digits =>
    rw [parse_key_loop, stoi_number sg digits hwf]
    simp only [KeyToken.well_formed, Bool.and_eq_true, Bool.or_eq_true, beq_iff_eq,
      Bool.not_eq_true', List.isEmpty_eq_false, List.all_eq_true, decide_eq_true_eq] at hwf
    obtain ⟨⟨_, hlo⟩, hhi⟩ := hwf
    have hw : wrap_int (number_value sg digits * sign) = number_value sg digits * sign := by
      rcases hs with rfl | ⟨rfl, hmin⟩
      · exact wrap_int_of_fits _ (by omega) (by omega)
      · have hne : number_value sg digits ≠ -2147483648 := by
          intro he
          exact hmin (by simp [KeyToken.key_values, he])
        exact wrap_int_of_fits _ (by omega) (by omega)
    simp only [hw, KeyToken.key_values, List.map_cons, List.map_nil, List.singleton_append]
  | letters run =>
    have hl : ∀ x ∈ run, is_letter x = true := by
      simpa [KeyToken.well_formed] using hwf
    show parse_key_loop sign (run :: rest) = _
    rw [parse_key_loop, stoi_letters run hl]
    simp only [letter_values_letters sign run hl, KeyToken.key_values, List.map_map]
    rfl

theorem chars_no_comma (t : KeyToken) (hwf : t.well_formed = true) : (44 : Int) ∉ t.chars := by
  cases t with
  | number sg digits =>
    simp only [KeyToken.well_formed, Bool.and_eq_true, Bool.or_eq_true, beq_iff_eq,
      Bool.not_eq_true', List.isEmpty_eq_false, List.all_eq_true, decide_eq_true_eq] at hwf
    obtain ⟨⟨⟨⟨hsign, _⟩, hdig⟩, _⟩, _⟩ := hwf
    simp only [KeyToken.chars, List.mem_append, List.mem_map, not_or, not_exists, not_and]
    refine ⟨?_, ?_⟩
    · rcases hsign with (rfl | rfl) | rfl <;> simp
    · intro d hd
      have := hdig d hd
      omega
  | letters run =>
    have hl : ∀ x ∈ run, is_letter x = true := by
      simpa [KeyToken.well_formed] using hwf
    intro hmem
    have := (is_letter_iff 44).mp (hl 44 hmem)
    omega

theorem key_values_of_empty (t : KeyToken) (hwf : t.well_formed = true) (h : t.chars = []) :
    t.key_values = [] := by
  cases t with
  | number sg digits =>
    simp only [KeyToken.well_formed, Bool.and_eq_true, Bool.or_eq_true, beq_iff_eq,
      Bool.not_eq_true', List.isEmpty_eq_false, List.all_eq_true, decide_eq_true_eq] at hwf
    obtain ⟨⟨⟨⟨_, hne⟩, _⟩, _⟩, _⟩ := hwf
    simp only [KeyToken.chars, List.append_eq_nil, List.map_eq_nil_iff] at h
    exact absurd h.2 hne
  | letters run =>
    have : run = [] := h
    subst this
    rfl

theorem getline_tokens_append (t : List Int) (h : (44 : Int) ∉ t) :
    ∀ (rest cur : List Int), getline_tokens (t ++ rest) cur = getline_tokens rest (cur ++ t) := by
  induction t with
  | nil => intro rest cur; simp
  | cons x r ih =>
    intro rest cur
    have hx : x ≠ 44 := fun e => h (e ▸ List.mem_cons_self _ _)
    have hr : (44 : Int) ∉ r := fun hm => h (List.mem_cons_of_mem _ hm)
    rw [List.cons_append, getline_tokens, if_neg hx, ih hr]
    simp

theorem key_string_cons_cons (t t2 : KeyToken) (ts : List KeyToken) :
    key_string (t :: t2 :: ts) = t.chars ++ 44 :: key_string (t2 :: ts) := by
  simp [key_string, List.intercalate, List.intersperse]

theorem parse_key_loop_key_string (sign : Int) :
    ∀ (tokens : List KeyToken), (∀ t ∈ tokens, t.well_formed = true) →
      (sign = 1 ∨ (sign = -1 ∧ ∀ t ∈ tokens, (-2147483648 : Int) ∉ t.key_values)) →
      parse_key_loop sign (getline_tokens (key_string tokens) [])
        = some ((tokens.map KeyToken.key_values).flatten.map fun v => v * sign) := by
  intro tokens
  induction tokens with
  | nil => intro _ _; rfl
  | cons t ts ih =>
    intro hwf hs
    have ht : t.well_formed = true := hwf t (List.mem_cons_self _ _)
    have hts : ∀ t' ∈ ts, t'.well_formed = true := fun t' h' => hwf t' (List.mem_cons_of_mem _ h')
    have hst : sign = 1 ∨ (sign = -1 ∧ (-2147483648 : Int) ∉ t.key_values) :=
      hs.imp id fun h => ⟨h.1, h.2 t (List.mem_cons_self _ _)⟩
    have hsts : sign = 1 ∨ (sign = -1 ∧ ∀ t' ∈ ts, (-2147483648 : Int) ∉ t'.key_values) :=
      hs.imp id fun h => ⟨h.1, fun t' h' => h.2 t' (List.mem_cons_of_mem _ h')⟩
    cases ts with
    | nil =>
      have hks : key_string [t] = t.chars := by
        simp [key_string, List.intercalate, List.intersperse]
      rw [hks]
      have := getline_tokens_append t.chars (chars_no_comma t ht) [] []
      rw [List.append_nil, List.nil_append] at this
      rw [this, getline_tokens]
      by_cases hempty : t.chars = []
      · rw [if_pos hempty]
        simp [parse_key_loop, key_values_of_empty t ht hempty]
      · rw [if_neg hempty, parse_key_loop_token sign t ht hst []]
        simp [parse_key_loop]
    | cons t2 ts' =>
      rw [key_string_cons_cons, getline_tokens_append t.chars (chars_no_comma t ht),
        getline_tokens, if_pos rfl, List.nil_append, parse_key_loop_token sign t ht hst,
        ih hts hsts]
      simp

/-- C5 as stated fails: the token `"-2147483648"` is a signed base-10 integer that fits
in an `int`, and under `decode` `parse_key` returns `[-2147483648]`, the product
`-2147483648 * -1` not fitting in an `int`, and not the negated `[2147483648]`. -/
theorem parse_key_int_min_not_negated :
    (KeyToken.number [45] [2, 1, 4, 7, 4, 8, 3, 6, 4, 8]).well_formed = true ∧
    key_string [KeyToken.number [45] [2, 1, 4, 7, 4, 8, 3, 6, 4, 8]] = str "-2147483648" ∧
    (KeyToken.number [45] [2, 1, 4, 7, 4, 8, 3, 6, 4, 8]).key_values = [-2147483648] ∧
    parse_key (str "-2147483648") false = some [-2147483648] ∧
    parse_key (str "-2147483648") true = some [-2147483648] ∧
    parse_key (str "-2147483648") true ≠ some [2147483648] := by
  decide

/-- C5 amended: for every key string made of comma-separated tokens, each a signed base-10
integer that fits in an `int` or a run of ASCII letters, `parse_key` returns the in-order
concatenation of `[n]` for an integer token `n` and of the zero-based alphabet positions of
the letters of a letter token, every element negated when `decode` is true, provided that
under `decode` no integer token is `-2147483648` (whose negation does not fit in an
`int`); under that proviso the result for `decode = true` is the element-wise negation of
the one for `decode = false`; `"3"` gives `[3]`, `"A,B,C"` gives `[0,1,2]` and `"3,A"`
gives `[3,0]`. -/
theorem parse_key_tokens (tokens : List KeyToken) (decode : Bool)
    (hwf : ∀ t ∈ tokens, t.well_formed = true)
    (hneg : decode = true → ∀ t ∈ tokens, (-2147483648 : Int) ∉ t.key_values) :
    parse_key (key_string tokens) decode
      = some ((tokens.map KeyToken.key_values).flatten.map
          fun v => if decode then -v else v) ∧
    ((∀ t ∈ tokens, (-2147483648 : Int) ∉ t.key_values) →
      parse_key (key_string tokens) true = (parse_key (key_string tokens) false).map negate) ∧
    parse_key (str "3") false = some [3] ∧
    parse_key (str "A,B,C") false = some [0, 1, 2] ∧
    parse_key (str "3,A") false = some [3, 0] := by
  refine ⟨?_, ?_, by decide, by decide, by decide⟩
  · cases decode with
    | false =>
      rw [parse_key, parse_key_loop_key_string _ tokens hwf (Or.inl (by simp))]
      simp
    | true =>
      rw [parse_key, parse_key_loop_key_string _ tokens hwf (Or.inr ⟨by simp, hneg rfl⟩)]
      simp
  · intro hmin
    rw [parse_key, parse_key, parse_key_loop_key_string _ tokens hwf (Or.inr ⟨by simp, hmin⟩),
      parse_key_loop_key_string _ tokens hwf (Or.inl (by simp))]
    simp [negate]

theorem parse_key_tokens_witness :
    (∀ t ∈ [KeyToken.number [45] [1, 2], KeyToken.letters (str "Key"),
        KeyToken.number [] [0, 7]], t.well_formed = true) ∧
    (true = true → ∀ t ∈ [KeyToken.number [45] [1, 2], KeyToken.letters (str "Key"),
        KeyToken.number [] [0, 7]], (-2147483648 : Int) ∉ t.key_values) ∧
    key_string [KeyToken.number [45] [1, 2], KeyToken.letters (str "Key"),
        KeyToken.number [] [0, 7]] = str "-12,Key,07" ∧
    (parse_key (key_string [KeyToken.number [45] [1, 2], KeyToken.letters (str "Key"),
        KeyToken.number [] [0, 7]]) true
      = some (([KeyToken.number [45] [1, 2], KeyToken.letters (str "Key"),
          KeyToken.number [] [0, 7]].map KeyToken.key_values).flatten.map
            fun v => if true then -v else v) ∧
    ((∀ t ∈ [KeyToken.number [45] [1, 2], KeyToken.letters (str "Key"),
        KeyToken.number [] [0, 7]], (-2147483648 : Int) ∉ t.key_values) →
      parse_key (key_string [KeyToken.number [45] [1, 2], KeyToken.letters (str "Key"),
        KeyToken.number [] [0, 7]]) true
      = (parse_key (key_string [KeyToken.number [45] [1, 2], KeyToken.letters (str "Key"),
        KeyToken.number [] [0, 7]]) false).map negate) ∧
    parse_key (str "3") false = some [3] ∧
    parse_key (str "A,B,C") false = some [0, 1, 2] ∧
    parse_key (str "3,A") false = some [3, 0]) ∧
    parse_key (str "-12,Key,07") true = some [12, -10, -4, -24, -7] :=
  ⟨by decide, by decide, by decide, parse_key_tokens _ true (by decide) (by decide),
    by decide⟩

/-! ## Key strings without any key value (C6) -/

/-- C6 at a failing input: on the key strings `""`, `","` and `"?!"` `parse_key` returns
the empty key sequence and reports nothing; `vigenere`, called with that key, divides by
zero at the first letter of `"abc"`, and on the letter-free `"12 34"` it returns the text,
again with nothing reported. -/
theorem empty_key_not_reported :
    parse_key (str "") false = some [] ∧
    parse_key (str ",") false = some [] ∧
    parse_key (str "?!") false = some [] ∧
    vigenere (str "abc") [] 0 = none ∧
    vigenere (str "12 34") [] 0 = some (str "12 34", 0) := by
  decide

theorem parse_key_loop_no_value (sign : Int) :
    ∀ (substrings : List (List Int)),
      (∀ sub ∈ substrings, stoi sub = StoiResult.invalid_argument ∧
        ∀ x ∈ sub, is_letter x = false) →
      parse_key_loop sign substrings = some [] := by
  have hlv : ∀ sub : List Int, (∀ x ∈ sub, is_letter x = false) → letter_values sign sub = [] := by
    intro sub
    induction sub with
    | nil => intro _; rfl
    | cons x r ih =>
      intro h
      obtain ⟨h1, h2⟩ := (is_letter_false_iff x).mp (h x (List.mem_cons_self _ _))
      rw [letter_values, if_neg h1, if_neg h2]
      exact ih fun y hy => h y (List.mem_cons_of_mem _ hy)
  intro substrings
  induction substrings with
  | nil => intro _; rfl
  | cons sub rest ih =>
    intro h
    obtain ⟨hst, hnl⟩ := h sub (List.mem_cons_self _ _)
    rw [parse_key_loop, hst]
    simp [ih fun s hs => h s (List.mem_cons_of_mem _ hs), hlv sub hnl]

/-- Whenever each comma-separated substring of the key string is rejected by `stoi` as not
a number and holds no ASCII letter, `parse_key` returns the empty key sequence. -/
theorem parse_key_no_value (keystring : List Int) (decode : Bool)
    (h : ∀ sub ∈ getline_tokens keystring [], stoi sub = StoiResult.invalid_argument ∧
      ∀ x ∈ sub, is_letter x = false) :
    parse_key keystring decode = some [] :=
  parse_key_loop_no_value _ _ h

/-! ## Block mode keeps exactly the letters (C7) -/

theorem block_break_cases (block_size blocks_per_row i : Int) (brk : List Int)
    (h : block_break block_size blocks_per_row i = some brk) :
    brk = [] ∨ brk = [32] ∨ brk = [10] := by
  unfold block_break at h
  split at h
  · simp only [Option.bind_eq_some] at h
    obtain ⟨r, _, h⟩ := h
    split at h
    · simp only [Option.bind_eq_some] at h
      obtain ⟨q, _, r2, _, h⟩ := h
      split at h <;> simp at h <;> simp [← h]
    · simp at h; simp [← h]
  · simp at h; simp [← h]

theorem is_letter_not_blank (x : Int) (h : is_letter x = true) : x ≠ 32 ∧ x ≠ 10 := by
  rcases (is_letter_iff x).mp h with h | h <;> omega

theorem format_loop_letters (block_size blocks_per_row : Int) :
    ∀ (text : List Int) (i : Int) (out : List Int),
      format_loop block_size blocks_per_row text i = some out →
      (∀ y ∈ out, is_letter y = true ∨ y = 32 ∨ y = 10) ∧
      out.filter (fun y => !(y == 32 || y == 10)) = text.filter is_letter := by
  intro text
  induction text with
  | nil =>
    intro i out h
    simp only [format_loop, Option.some.injEq] at h
    subst h
    simp
  | cons x rest ih =>
    intro i out h
    by_cases hx : (65 ≤ x ∧ x ≤ 90) ∨ (97 ≤ x ∧ x ≤ 122)
    · have hl : is_letter x = true := (is_letter_iff x).mpr hx
      obtain ⟨h32, h10⟩ := is_letter_not_blank x hl
      rw [format_loop, if_pos hx] at h
      simp only [Option.bind_eq_some, Option.map_eq_some'] at h
      obtain ⟨brk, hbrk, out', hout', rfl⟩ := h
      obtain ⟨ih1, ih2⟩ := ih (i + 1) out' hout'
      rcases block_break_cases _ _ _ _ hbrk with rfl | rfl | rfl
      · refine ⟨?_, ?_⟩
        · intro y hy
          simp only [List.nil_append, List.mem_cons] at hy
          rcases hy with rfl | hy
          · exact Or.inl hl
          · exact ih1 y hy
        · simpa [List.filter_cons, hl, h32, h10] using ih2
      · refine ⟨?_, ?_⟩
        · intro y hy
          simp only [List.singleton_append, List.mem_cons] at hy
          rcases hy with rfl | rfl | hy
          · exact Or.inl hl
          · exact Or.inr (Or.inl rfl)
          · exact ih1 y hy
        · simpa [List.filter_cons, hl, h32, h10] using ih2
      · refine ⟨?_, ?_⟩
        · intro y hy
          simp only [List.singleton_append, List.mem_cons] at hy
          rcases hy with rfl | rfl | hy
          · exact Or.inl hl
          · exact Or.inr (Or.inr rfl)
          · exact ih1 y hy
        · simpa [List.filter_cons, hl, h32, h10] using ih2
    · have hl : is_letter x = false := by
        rw [← Bool.not_eq_true, is_letter_iff]; exact hx
      rw [format_loop, if_neg hx] at h
      obtain ⟨ih1, ih2⟩ := ih i out h
      exact ⟨ih1, by simpa [List.filter_cons, hl] using ih2⟩

/-- C7: for every text, case mode, block size `b != 0`, `cols` and `start >= 0` for which
`format_text` returns a result, that result consists only of ASCII letters, spaces and
newlines, and removing its spaces and newlines leaves exactly the ASCII letters of
`change_case(text, case mode)` in their original order. -/
theorem format_text_keeps_letters (text : List Int) (case_flag b cols start : Int)
    (out : List Int) (hb : b ≠ 0) (_hs : 0 ≤ start)
    (h : format_text text case_flag b cols start = some out) :
    (∀ y ∈ out, is_letter y = true ∨ y = 32 ∨ y = 10) ∧
    out.filter (fun y => !(y == 32 || y == 10))
      = (change_case text case_flag).filter is_letter := by
  simp only [format_text, if_neg hb, Option.bind_eq_some] at h
  obtain ⟨bpr, _, h⟩ := h
  exact format_loop_letters _ _ _ _ _ h

theorem format_text_keeps_letters_witness :
    (4 : Int) ≠ 0 ∧ (0 : Int) ≤ 2 ∧
    format_text (str "To be, or not 2 be?\n") 1 4 14 2 = some (str "TO BEOR NOTB\nE") ∧
    (∀ y ∈ str "TO BEOR NOTB\nE", is_letter y = true ∨ y = 32 ∨ y = 10) ∧
    (str "TO BEOR NOTB\nE").filter (fun y => !(y == 32 || y == 10))
      = (change_case (str "To be, or not 2 be?\n") 1).filter is_letter :=
  ⟨by decide, by decide, by decide,
    format_text_keeps_letters (str "To be, or not 2 be?\n") 1 4 14 2 (str "TO BEOR NOTB\nE")
      (by decide) (by decide) (by decide)⟩

/-! ## The block formatting example (C9) -/

/-- C9 as stated fails: on `"Hello World"` with block size 3, cols 10 and start 0 the
blocks of the result (its maximal runs between spaces and newlines) are not
`"Hel"`, `"lo"`, `"Wor"`, `"ld"`. -/
theorem format_text_hello_world_not_word_blocks :
    ¬ ∃ out, format_text (str "Hello World") (-1) 3 10 0 = some out ∧
      (out.splitOnP fun y => y == 32 || y == 10).filter (fun blk => !blk.isEmpty)
        = [str "Hel", str "lo", str "Wor", str "ld"] := by
  rintro ⟨out, h, hblocks⟩
  have hval : format_text (str "Hello World") (-1) 3 10 0 = some (str "Hel loW\norl d") := by
    decide
  rw [hval] at h
  cases h
  revert hblocks
  decide

/-- C9 amended: `format_text("Hello World", default case, 3, 10, 0)` returns
`"Hel loW\norl d"`: the space of the input is dropped, the ten letters are cut into the
blocks `"Hel"`, `"loW"`, `"orl"`, `"d"`, and a newline ends each row of
`(10+1)/(3+1) = 2` blocks. -/
theorem format_text_hello_world :
    format_text (str "Hello World") (-1) 3 10 0 = some (str "Hel loW\norl d") ∧
    c_div (10 + 1) (3 + 1) = some 2 ∧
    ((str "Hel loW\norl d").splitOn 10).map (fun row => row.splitOn 32)
      = [[str "Hel", str "loW"], [str "orl", str "d"]] := by
  decide

/-! ## Block grouping (C8) and the column bound (C10) -/

theorem block_break_eq (b bpr i : Int) (hb : 0 < b) (hbpr : 0 < bpr) (hi : 0 ≤ i) :
    block_break b bpr i = some (separator_after b bpr i) := by
  have hb0 : b ≠ 0 := by omega
  have hbpr0 : bpr ≠ 0 := by omega
  have hq : 0 ≤ i / b := Int.ediv_nonneg hi (by omega)
  simp only [block_break, hb, if_true, c_mod, c_div, hb0, hbpr0, if_false, Option.some_bind,
    separator_after]
  rw [Int.tmod_eq_emod hi (by omega), Int.tdiv_eq_ediv hi (by omega),
    Int.tmod_eq_emod hq (by omega)]
  by_cases h1 : i % b = 0
  · by_cases h2 : (i / b) % bpr = 0 <;> simp [h1, h2]
  · simp [h1]

theorem format_loop_eq (b bpr : Int) (hb : 0 < b) (hbpr : 0 < bpr) :
    ∀ (text : List Int) (i : Int), 0 ≤ i →
      format_loop b bpr text i = some (grouped_from b bpr i (text.filter is_letter)) := by
  intro text
  induction text with
  | nil => intro i _; simp [format_loop, grouped_from]
  | cons x rest ih =>
    intro i hi
    by_cases hx : (65 ≤ x ∧ x ≤ 90) ∨ (97 ≤ x ∧ x ≤ 122)
    · have hl : is_letter x = true := (is_letter_iff x).mpr hx
      rw [format_loop, if_pos hx, block_break_eq b bpr (i + 1) hb hbpr (by omega),
        ih (i + 1) (by omega)]
      simp [List.filter_cons, hl, grouped_from]
    · have hl : is_letter x = false := by
        rw [← Bool.not_eq_true, is_letter_iff]; exact hx
      rw [format_loop, if_neg hx, ih i hi]
      simp [List.filter_cons, hl]

theorem separator_after_state (b bpr w u v i : Int) (hb : 0 < b)
    (hu0 : 0 ≤ u) (hub : u < b) (hv0 : 0 ≤ v) (hvb : v < bpr)
    (hi : i = (w * bpr + v) * b + u) :
    separator_after b bpr (i + 1)
      = if u + 1 < b then [] else if v + 1 < bpr then [32] else [10] := by
  have e1 : i + 1 = (u + 1) + b * (w * bpr + v) := by rw [hi]; ring
  unfold separator_after
  by_cases h1 : u + 1 < b
  · have : (i + 1) % b = u + 1 := by
      rw [e1, Int.add_mul_emod_self_left, Int.emod_eq_of_lt (by omega) h1]
    rw [this, if_neg (by omega), if_pos h1]
  · have hub1 : u + 1 = b := by omega
    have e2 : i + 1 = b * (w * bpr + v + 1) := by rw [e1, hub1]; ring
    have hm : (i + 1) % b = 0 := by rw [e2]; exact Int.mul_emod_right _ _
    have hd : (i + 1) / b = w * bpr + v + 1 := by
      rw [e2]; exact Int.mul_ediv_cancel_left _ (by omega)
    rw [hm, if_pos rfl, hd, if_neg h1]
    have e3 : w * bpr + v + 1 = (v + 1) + bpr * w := by ring
    rw [e3, Int.add_mul_emod_self_left]
    by_cases h2 : v + 1 < bpr
    · rw [Int.emod_eq_of_lt (by omega) h2, if_neg (by omega), if_pos h2]
    · have : v + 1 = bpr := by omega
      rw [this, Int.emod_self, if_pos rfl, if_neg (by omega)]

theorem grouped_from_eq_row_layout (b bpr : Int) (hb : 0 < b) (hbpr : 0 < bpr) :
    ∀ (letters : List Int) (w u v i : Int), 0 ≤ u → u < b → 0 ≤ v → v < bpr →
      i = (w * bpr + v) * b + u →
      grouped_from b bpr i letters = row_layout b bpr u v letters := by
  intro letters
  induction letters with
  | nil => intro w u v i _ _ _ _ _; rfl
  | cons x rest ih =>
    intro w u v i hu0 hub hv0 hvb hi
    rw [grouped_from, row_layout, separator_after_state b bpr w u v i hb hu0 hub hv0 hvb hi]
    by_cases h1 : u + 1 < b
    · rw [if_pos h1, if_pos h1, ih w (u + 1) v (i + 1) (by omega) h1 hv0 hvb (by rw [hi]; ring)]
      rfl
    · have hub1 : u + 1 = b := by omega
      rw [if_neg h1, if_neg h1]
      by_cases h2 : v + 1 < bpr
      · rw [if_pos h2, if_pos h2,
          ih w 0 (v + 1) (i + 1) (by omega) hb (by omega) h2 (by rw [hi, ← hub1]; ring)]
        rfl
      · have hvb1 : v + 1 = bpr := by omega
        rw [if_neg h2, if_neg h2,
          ih (w + 1) 0 0 (i + 1) (by omega) hb (by omega) hbpr
            (by rw [hi, ← hub1, ← hvb1]; ring)]
        rfl

theorem segments_ok_ne_nil (m : List Int → Int) (cap u : Int) (L : List (List Int))
    (h : segments_ok m cap u L) : L ≠ [] := by
  intro hL
  subst hL
  exact h

theorem segments_ok_modifyHead (m : List Int → Int) (cap u u' : Int) (f : List Int → List Int)
    (hf : ∀ s, u + m (f s) = u' + m s) (L : List (List Int))
    (h : segments_ok m cap u' L) : segments_ok m cap u (L.modifyHead f) := by
  match L, h with
  | [s], h =>
    show u + m (f s) ≤ cap
    rw [hf]; exact h
  | s :: t :: ts, h =>
    show u + m (f s) = cap ∧ segments_ok m cap 0 (t :: ts)
    rw [hf]; exact h

theorem segments_ok_cons (m : List Int → Int) (cap u : Int) (s : List Int)
    (hs : u + m s = cap) (L : List (List Int)) (h : segments_ok m cap 0 L) :
    segments_ok m cap u (s :: L) := by
  match L, h with
  | [t], h => exact ⟨hs, h⟩
  | t :: t' :: ts, h => exact ⟨hs, h⟩

theorem segments_ok_le (m : List Int → Int) (cap : Int) :
    ∀ (L : List (List Int)) (u : Int), 0 ≤ u → segments_ok m cap u L →
      ∀ s ∈ L, m s ≤ cap := by
  intro L
  induction L with
  | nil => intro u _ h; exact absurd h id
  | cons a t ih =>
    intro u hu h s hs
    cases t with
    | nil =>
      simp only [List.mem_singleton] at hs
      subst hs
      have : u + m s ≤ cap := h
      omega
    | cons a' ts =>
      obtain ⟨h1, h2⟩ : u + m a = cap ∧ segments_ok m cap 0 (a' :: ts) := h
      rcases List.mem_cons.mp hs with rfl | hs
      · omega
      · exact ih 0 (le_refl 0) h2 s hs

theorem segments_ok_dropLast (m : List Int → Int) (cap : Int) :
    ∀ (L : List (List Int)), segments_ok m cap 0 L → ∀ s ∈ L.dropLast, m s = cap := by
  intro L
  induction L with
  | nil => intro h; exact absurd h id
  | cons a t ih =>
    intro h s hs
    cases t with
    | nil => simp at hs
    | cons a' ts =>
      obtain ⟨h1, h2⟩ : 0 + m a = cap ∧ segments_ok m cap 0 (a' :: ts) := h
      rw [List.dropLast_cons₂] at hs
      rcases List.mem_cons.mp hs with rfl | hs
      · omega
      · exact ih h2 s hs

theorem splitOnP_letter (p : Int → Bool) (x : Int) (hx : p x = false) (rest : List Int) :
    (x :: rest).splitOnP p = (rest.splitOnP p).modifyHead (List.cons x) := by
  rw [List.splitOnP_cons, hx]; rfl

theorem splitOnP_letter_sep (p : Int → Bool) (x y : Int) (hx : p x = false) (hy : p y = true)
    (rest : List Int) :
    (x :: y :: rest).splitOnP p = [x] :: rest.splitOnP p := by
  rw [splitOnP_letter p x hx, List.splitOnP_cons, hy]; rfl

theorem splitOnP_letter_letter (p : Int → Bool) (x y : Int) (hx : p x = false)
    (hy : p y = false) (rest : List Int) :
    (x :: y :: rest).splitOnP p = (rest.splitOnP p).modifyHead (fun s => x :: y :: s) := by
  rw [splitOnP_letter p x hx, splitOnP_letter p y hy, List.modifyHead_modifyHead]; rfl

/-- The blocks of a layout: runs between separators have `b` letters, the last at most. -/
theorem row_layout_blocks (b bpr : Int) :
    ∀ (letters : List Int) (u v : Int), (∀ x ∈ letters, is_letter x = true) → 0 ≤ u → u < b →
      segments_ok (fun s => (s.length : Int)) b u
        ((row_layout b bpr u v letters).splitOnP fun y => y == 32 || y == 10) := by
  intro letters
  induction letters with
  | nil =>
    intro u v _ _ hub
    show u + ((([] : List Int).length : Nat) : Int) ≤ b
    simp; omega
  | cons x rest ih =>
    intro u v hl hu0 hub
    have hx : (fun y : Int => y == 32 || y == 10) x = false := by
      have := is_letter_not_blank x (hl x (List.mem_cons_self _ _))
      simp [this.1, this.2]
    have hrest : ∀ y ∈ rest, is_letter y = true := fun y hy => hl y (List.mem_cons_of_mem _ hy)
    rw [row_layout]
    by_cases h1 : u + 1 < b
    · rw [if_pos h1, splitOnP_letter _ x hx]
      refine segments_ok_modifyHead _ b u (u + 1) _ ?_ _ (ih (u + 1) v hrest (by omega) h1)
      intro s; simp; omega
    · rw [if_neg h1]
      by_cases h2 : v + 1 < bpr
      · rw [if_pos h2, splitOnP_letter_sep _ x 32 hx (by decide)]
        refine segments_ok_cons _ b u [x] ?_ _ (ih 0 (v + 1) hrest (le_refl 0) (by omega))
        simp; omega
      · rw [if_neg h2, splitOnP_letter_sep _ x 10 hx (by decide)]
        refine segments_ok_cons _ b u [x] ?_ _ (ih 0 0 hrest (le_refl 0) (by omega))
        simp; omega

theorem length_modifyHead_cons (x : Int) (L : List (List Int)) :
    (L.modifyHead (List.cons x)).length = L.length := by
  cases L <;> rfl

theorem blocks_of_row_nil : (([] : List Int).splitOn 32).length = 1 := rfl

theorem blocks_of_row_letter (x : Int) (hx : is_letter x = true) (row : List Int) :
    ((x :: row).splitOn 32).length = (row.splitOn 32).length := by
  have h32 : (fun y : Int => y == 32) x = false := by
    have := (is_letter_not_blank x hx).1
    simp [this]
  show ((x :: row).splitOnP fun y => y == 32).length = _
  rw [splitOnP_letter _ x h32, length_modifyHead_cons]
  rfl

theorem blocks_of_row_space (row : List Int) :
    ((32 :: row).splitOn 32).length = (row.splitOn 32).length + 1 := by
  show ((32 :: row).splitOnP fun y => y == 32).length = _
  rw [List.splitOnP_cons]
  rfl

/-- The rows of a layout: every row but the last has `bpr` blocks, the last at most. -/
theorem row_layout_rows (b bpr : Int) :
    ∀ (letters : List Int) (u v : Int), (∀ x ∈ letters, is_letter x = true) →
      0 ≤ v → v < bpr →
      segments_ok (fun row => ((row.splitOn 32).length : Int)) bpr v
        ((row_layout b bpr u v letters).splitOnP fun y => y == 10) := by
  intro letters
  induction letters with
  | nil =>
    intro u v _ _ hvb
    show v + (((([] : List Int).splitOn 32).length : Nat) : Int) ≤ bpr
    rw [blocks_of_row_nil]; omega
  | cons x rest ih =>
    intro u v hl hv0 hvb
    have hxl : is_letter x = true := hl x (List.mem_cons_self _ _)
    have hx : (fun y : Int => y == 10) x = false := by
      have := (is_letter_not_blank x hxl).2
      simp [this]
    have hrest : ∀ y ∈ rest, is_letter y = true := fun y hy => hl y (List.mem_cons_of_mem _ hy)
    rw [row_layout]
    by_cases h1 : u + 1 < b
    · rw [if_pos h1, splitOnP_letter _ x hx]
      refine segments_ok_modifyHead _ bpr v v _ ?_ _ (ih (u + 1) v hrest hv0 hvb)
      intro s
      show v + (((x :: s).splitOn 32).length : Int) = v + ((s.splitOn 32).length : Int)
      rw [blocks_of_row_letter x hxl]
    · rw [if_neg h1]
      by_cases h2 : v + 1 < bpr
      · rw [if_pos h2, splitOnP_letter_letter _ x 32 hx (by decide)]
        refine segments_ok_modifyHead _ bpr v (v + 1) _ ?_ _
          (ih 0 (v + 1) hrest (by omega) h2)
        intro s
        show v + (((x :: 32 :: s).splitOn 32).length : Int)
          = v + 1 + ((s.splitOn 32).length : Int)
        rw [blocks_of_row_letter x hxl, blocks_of_row_space]
        push_cast; omega
      · rw [if_neg h2, splitOnP_letter_sep _ x 10 hx (by decide)]
        refine segments_ok_cons _ bpr v [x] ?_ _ (ih 0 0 hrest (le_refl 0) (by omega))
        show v + ((([x] : List Int).splitOn 32).length : Int) = bpr
        rw [blocks_of_row_letter x hxl, blocks_of_row_nil]
        push_cast; omega

theorem blocks_per_row_pos (b cols : Int) (hb : 0 < b) (hc : b ≤ cols) :
    0 < (cols + 1) / (b + 1) :=
  Int.le_ediv_of_mul_le (by omega) (by omega)

theorem format_text_block_eq (text : List Int) (case_flag b cols start : Int) (hb : 0 < b)
    (hc : b ≤ cols) (hs : 0 ≤ start) :
    format_text text case_flag b cols start
      = some (grouped_from b ((cols + 1) / (b + 1)) start
          ((change_case text case_flag).filter is_letter)) := by
  have hb0 : b ≠ 0 := by omega
  have hb1 : b + 1 ≠ 0 := by omega
  have hnb : ¬ b < 0 := by omega
  simp only [format_text, if_neg hb0, if_pos hb, c_div, if_neg hb1, Option.some_bind,
    if_neg hnb]
  rw [Int.tdiv_eq_ediv (by omega) (by omega)]
  exact format_loop_eq b _ hb (blocks_per_row_pos b cols hb hc) _ start hs

theorem grouped_from_enumFrom (b bpr : Int) :
    ∀ (letters : List Int) (n : Nat),
      grouped_from b bpr n letters
        = ((letters.enumFrom n).map fun jx =>
            jx.2 :: separator_after b bpr ((jx.1 : Int) + 1)).flatten := by
  intro letters
  induction letters with
  | nil => intro n; rfl
  | cons x rest ih =>
    intro n
    rw [grouped_from, List.enumFrom_cons, List.map_cons, List.flatten_cons]
    have := ih (n + 1)
    rw [Nat.cast_add, Nat.cast_one] at this
    rw [this]
    rfl

/-- C8: for every text, block size `b > 0`, `cols >= b` and `start = 0`, `format_text`
returns the letters of the case-converted text, the `k`-th of them (from 1) followed by a
separator exactly when `k` is a multiple of `b`: a newline when the number `k / b` of
blocks completed is a multiple of `blocks_per_row = (cols+1)/(b+1)`, a space otherwise.
Hence every block (run between separators) but the last has exactly `b` letters and the
last at most `b`, and every row (run between newlines) but the last has exactly
`blocks_per_row` blocks and the last at most that many. -/
theorem format_text_block_grouping (text : List Int) (case_flag b cols : Int) (hb : 0 < b)
    (hc : b ≤ cols) :
    ∃ out, format_text text case_flag b cols 0 = some out ∧
      out = ((((change_case text case_flag).filter is_letter).enum).map fun jx =>
          jx.2 :: separator_after b ((cols + 1) / (b + 1)) ((jx.1 : Int) + 1)).flatten ∧
      (∀ blk ∈ (out.splitOnP fun y => y == 32 || y == 10).dropLast, (blk.length : Int) = b) ∧
      (∀ blk ∈ (out.splitOnP fun y => y == 32 || y == 10), (blk.length : Int) ≤ b) ∧
      (∀ row ∈ (out.splitOn 10).dropLast,
        ((row.splitOn 32).length : Int) = (cols + 1) / (b + 1)) ∧
      (∀ row ∈ out.splitOn 10, ((row.splitOn 32).length : Int) ≤ (cols + 1) / (b + 1)) := by
  have hbpr := blocks_per_row_pos b cols hb hc
  have hlet : ∀ x ∈ (change_case text case_flag).filter is_letter, is_letter x = true :=
    fun x hx => (List.mem_filter.mp hx).2
  have hlay := grouped_from_eq_row_layout b _ hb hbpr
    ((change_case text case_flag).filter is_letter) 0 0 0 0 (le_refl 0) hb (le_refl 0) hbpr
    (by ring)
  refine ⟨_, format_text_block_eq text case_flag b cols 0 hb hc (le_refl 0), ?_, ?_, ?_, ?_, ?_⟩
  · exact grouped_from_enumFrom b _ _ 0
  · rw [hlay]
    exact segments_ok_dropLast _ b _ (row_layout_blocks b _ _ 0 0 hlet (le_refl 0) hb)
  · rw [hlay]
    exact segments_ok_le _ b _ 0 (le_refl 0) (row_layout_blocks b _ _ 0 0 hlet (le_refl 0) hb)
  · rw [hlay]
    exact segments_ok_dropLast _ _ _ (row_layout_rows b _ _ 0 0 hlet (le_refl 0) hbpr)
  · rw [hlay]
    exact segments_ok_le _ _ _ 0 (le_refl 0) (row_layout_rows b _ _ 0 0 hlet (le_refl 0) hbpr)

theorem format_text_block_grouping_witness :
    (0 : Int) < 2 ∧ (2 : Int) ≤ 8 ∧
    ∃ out, format_text (str "The quick, brown fox") 0 2 8 0 = some out ∧
      out = ((((change_case (str "The quick, brown fox") 0).filter is_letter).enum).map
          fun jx => jx.2 :: separator_after 2 ((8 + 1) / (2 + 1)) ((jx.1 : Int) + 1)).flatten ∧
      (∀ blk ∈ (out.splitOnP fun y => y == 32 || y == 10).dropLast, (blk.length : Int) = 2) ∧
      (∀ blk ∈ (out.splitOnP fun y => y == 32 || y == 10), (blk.length : Int) ≤ 2) ∧
      (∀ row ∈ (out.splitOn 10).dropLast,
        ((row.splitOn 32).length : Int) = (8 + 1) / (2 + 1)) ∧
      (∀ row ∈ out.splitOn 10, ((row.splitOn 32).length : Int) ≤ (8 + 1) / (2 + 1)) :=
  ⟨by decide, by decide, format_text_block_grouping _ _ _ _ (by decide) (by decide)⟩

theorem lines_within_nonneg (bound i : Int) (out : List Int) (h : lines_within bound i out) :
    0 ≤ bound ∧ 0 ≤ i := by
  have h1 := h.1 [] ⟨[], out, by simp⟩ (List.not_mem_nil _)
  have h2 := h.2 [] ⟨out, by simp⟩ (List.not_mem_nil _)
  simpa using And.intro h1 h2

theorem lines_within_mono (bound i i' : Int) (out : List Int) (h : lines_within bound i out)
    (hi : i ≤ i') : lines_within bound i' out :=
  ⟨h.1, fun seg hs h10 => le_trans (h.2 seg hs h10) hi⟩

theorem lines_within_nil (bound : Int) (hb : 0 ≤ bound) : lines_within bound 0 [] := by
  refine ⟨?_, ?_⟩
  · intro seg hs _
    rw [List.eq_nil_of_infix_nil hs]
    simpa using hb
  · intro seg hs _
    rw [List.eq_nil_of_suffix_nil hs]
    simp

theorem lines_within_newline (bound i : Int) (out : List Int) (h : lines_within bound i out) :
    lines_within bound 0 (out ++ [10]) := by
  have hnn := lines_within_nonneg bound i out h
  have hsuf : ∀ seg, seg <:+ out ++ [10] → (10 : Int) ∉ seg → seg = [] := by
    intro seg hs h10
    rcases List.suffix_concat_iff.mp hs with rfl | ⟨t, rfl, _⟩
    · rfl
    · exact absurd (List.mem_append_right t (List.mem_singleton_self 10)) h10
  refine ⟨?_, ?_⟩
  · intro seg hs h10
    rcases List.infix_concat_iff.mp hs with hs | hi
    · rw [hsuf seg hs h10]
      simpa using hnn.1
    · exact h.1 seg hi h10
  · intro seg hs h10
    rw [hsuf seg hs h10]
    simp

theorem lines_within_char (bound i x : Int) (out : List Int) (h : lines_within bound i out)
    (hb : i + 1 ≤ bound) : lines_within bound (i + 1) (out ++ [x]) := by
  have hnn := lines_within_nonneg bound i out h
  by_cases hx : x = 10
  · subst hx
    exact lines_within_mono bound 0 (i + 1) _ (lines_within_newline bound i out h) (by omega)
  · have hsuf : ∀ seg, seg <:+ out ++ [x] → (10 : Int) ∉ seg → (seg.length : Int) ≤ i + 1 := by
      intro seg hs h10
      rcases List.suffix_concat_iff.mp hs with rfl | ⟨t, rfl, ht⟩
      · simp; omega
      · have h10t : (10 : Int) ∉ t := fun hm => h10 (List.mem_append_left _ hm)
        have := h.2 t ht h10t
        simp only [List.length_append, List.length_singleton, Nat.cast_add, Nat.cast_one]
        omega
    refine ⟨?_, hsuf⟩
    intro seg hs h10
    rcases List.infix_concat_iff.mp hs with hs | hi
    · exact le_trans (hsuf seg hs h10) hb
    · exact h.1 seg hi h10

theorem lines_within_word (bound : Int) :
    ∀ (w out : List Int) (i : Int), lines_within bound i out → i + (w.length : Int) ≤ bound →
      lines_within bound (i + (w.length : Int)) (out ++ w) := by
  intro w
  induction w with
  | nil => intro out i h _; simpa using h
  | cons x r ih =>
    intro out i h hb
    simp only [List.length_cons, Nat.cast_add, Nat.cast_one] at hb ⊢
    have h1 := lines_within_char bound i x out h (by omega)
    have h2 := ih (out ++ [x]) (i + 1) h1 (by omega)
    rw [List.append_assoc, List.singleton_append] at h2
    rw [show i + ((r.length : Int) + 1) = i + 1 + (r.length : Int) by omega]
    exact h2

theorem is_separator_iff (x : Int) :
    is_separator x = true ↔ (x = 10 ∨ x = 32 ∨ x = 45 ∨ x = 47) := by
  simp [is_separator, or_assoc]

/-- One separator step of `break_lines` keeps the width invariant when the word just read
has at most `m` characters, with `cols <= bound` and `m + 1 <= bound`. -/
theorem break_lines_step_lines (bound m cols : Int) (hb1 : cols ≤ bound) (hb2 : m + 1 ≤ bound)
    (st : WrapState) (x : Int) (hx : x = 10 ∨ x = 32 ∨ x = 45 ∨ x = 47)
    (hn : (st.word.length : Int) ≤ m) (h : lines_within bound st.i st.output) :
    lines_within bound (break_lines_step cols st x).i (break_lines_step cols st x).output ∧
    (break_lines_step cols st x).word = [] := by
  have hnn := lines_within_nonneg bound st.i st.output h
  have hlen : (0 : Int) ≤ st.word.length := Int.natCast_nonneg _
  by_cases h1 : st.i = 0
  · simp only [break_lines_step, if_pos hx, if_pos h1, and_true]
    rw [h1] at h
    have := lines_within_word bound st.word st.output 0 h (by omega)
    rwa [h1]
  · by_cases h2 : st.i + (st.word.length : Int) < cols
    · simp only [break_lines_step, if_pos hx, if_neg h1, if_pos h2, and_true]
      have ha := lines_within_char bound st.i st.sep st.output h (by omega)
      have hw := lines_within_word bound st.word _ (st.i + 1) ha (by omega)
      rw [List.append_assoc, List.singleton_append] at hw
      rw [show st.i + ((st.word.length : Int) + 1) = st.i + 1 + (st.word.length : Int) by omega]
      exact hw
    · by_cases h3 : st.sep = 32
      · simp only [break_lines_step, if_pos hx, if_neg h1, if_neg h2, if_pos h3, and_true]
        have ha := lines_within_newline bound st.i st.output h
        have hw := lines_within_word bound st.word _ 0 ha (by omega)
        rw [List.append_assoc, List.singleton_append, Int.zero_add] at hw
        exact hw
      · by_cases h4 : st.i < cols
        · simp only [break_lines_step, if_pos hx, if_neg h1, if_neg h2, if_neg h3, if_pos h4,
            and_true]
          have ha := lines_within_char bound st.i st.sep st.output h (by omega)
          have hb := lines_within_newline bound _ _ ha
          have hw := lines_within_word bound st.word _ 0 hb (by omega)
          rw [List.append_assoc, List.append_assoc, List.singleton_append,
            List.singleton_append, Int.zero_add] at hw
          exact hw
        · simp only [break_lines_step, if_pos hx, if_neg h1, if_neg h2, if_neg h3, if_neg h4,
            and_true]
          have ha := lines_within_newline bound st.i st.output h
          by_cases h5 : st.sep = 10
          · rw [if_pos h5, h5]
            have hb := lines_within_newline bound _ _ ha
            have hw := lines_within_word bound st.word _ 0 hb (by omega)
            rw [List.append_assoc, List.append_assoc, List.singleton_append,
              List.singleton_append, Int.zero_add] at hw
            exact hw
          · rw [if_neg h5]
            have hb := lines_within_char bound 0 st.sep _ ha (by omega)
            have hw := lines_within_word bound st.word _ (0 + 1) hb (by omega)
            rw [List.append_assoc, List.append_assoc, List.singleton_append,
              List.singleton_append] at hw
            rw [show (st.word.length : Int) + 1 = 0 + 1 + (st.word.length : Int) by omega]
            exact hw

theorem break_lines_foldl_lines (bound m cols : Int) (hb1 : cols ≤ bound)
    (hb2 : m + 1 ≤ bound) :
    ∀ (l : List Int) (st : WrapState), (∀ c ∈ st.word, is_separator c = false) →
      (∀ r ∈ (st.word ++ l).splitOnP is_separator, (r.length : Int) ≤ m) →
      lines_within bound st.i st.output →
      lines_within bound (l.foldl (break_lines_step cols) st).i
          (l.foldl (break_lines_step cols) st).output ∧
        ((l.foldl (break_lines_step cols) st).word.length : Int) ≤ m := by
  intro l
  induction l with
  | nil =>
    intro st hword hruns h
    refine ⟨h, ?_⟩
    rw [List.append_nil, List.splitOnP_eq_single is_separator st.word
      (fun c hc => by simp [hword c hc])] at hruns
    exact hruns _ (List.mem_singleton_self _)
  | cons x rest ih =>
    intro st hword hruns h
    rw [List.foldl_cons]
    by_cases hx : is_separator x = true
    · rw [List.splitOnP_first is_separator st.word (fun c hc => by simp [hword c hc]) x hx]
        at hruns
      have hn := hruns _ (List.mem_cons_self _ _)
      obtain ⟨hl, hw⟩ := break_lines_step_lines bound m cols hb1 hb2 st x
        ((is_separator_iff x).mp hx) hn h
      apply ih _ (by rw [hw]; intro c hc; simp at hc) _ hl
      rw [hw, List.nil_append]
      exact fun r hr => hruns r (List.mem_cons_of_mem _ hr)
    · have hx' : ¬(x = 10 ∨ x = 32 ∨ x = 45 ∨ x = 47) := fun hh => hx ((is_separator_iff x).mpr hh)
      have hstep : break_lines_step cols st x = { st with word := st.word ++ [x] } := by
        simp only [break_lines_step, if_neg hx']
      rw [hstep]
      apply ih
      · intro c hc
        rcases List.mem_append.mp hc with hc | hc
        · exact hword c hc
        · rw [List.mem_singleton.mp hc]; simpa using hx
      · simpa [List.append_assoc] using hruns
      · exact h

theorem splitOnP_runs (p : Int → Bool) :
    ∀ l : List Int, ∃ h rest, l.splitOnP p = h :: rest ∧ h <+: l ∧
      (∀ c ∈ h, p c = false) ∧ ∀ r ∈ rest, r <:+: l ∧ ∀ c ∈ r, p c = false := by
  intro l
  induction l with
  | nil => exact ⟨[], [], rfl, List.prefix_refl _, by simp, by simp⟩
  | cons x t ih =>
    obtain ⟨h, rest, heq, hpre, hh, hrest⟩ := ih
    by_cases hx : p x = true
    · refine ⟨[], h :: rest, ?_, List.nil_prefix, by simp, ?_⟩
      · rw [List.splitOnP_cons, if_pos hx, heq]
      · intro r hr
        rcases List.mem_cons.mp hr with rfl | hr
        · exact ⟨List.infix_cons hpre.isInfix, hh⟩
        · exact ⟨List.infix_cons (hrest r hr).1, (hrest r hr).2⟩
    · refine ⟨x :: h, rest, ?_, ?_, ?_, ?_⟩
      · rw [List.splitOnP_cons, if_neg hx, heq]; rfl
      · exact (List.prefix_cons_inj x).mpr hpre
      · intro c hc
        rcases List.mem_cons.mp hc with rfl | hc
        · simpa using hx
        · exact hh c hc
      · intro r hr
        exact ⟨List.infix_cons (hrest r hr).1, (hrest r hr).2⟩

/-- Lines of `break_lines`: when every word of the text has at most `m` characters, every
line of the result has at most `bound` characters, for `cols <= bound` and
`m + 1 <= bound`. -/
theorem break_lines_lines_le (bound m cols : Int) (hb1 : cols ≤ bound) (hb2 : m + 1 ≤ bound)
    (text : List Int) (hw : ∀ w ∈ text.splitOnP is_separator, (w.length : Int) ≤ m) :
    ∀ line ∈ (break_lines text cols).splitOn 10, (line.length : Int) ≤ bound := by
  have hm : 0 ≤ m := by
    obtain ⟨h, rest, heq, _⟩ := splitOnP_runs is_separator text
    have := hw h (by rw [heq]; exact List.mem_cons_self _ _)
    have h0 : (0 : Int) ≤ h.length := Int.natCast_nonneg _
    omega
  obtain ⟨hl, hwl⟩ := break_lines_foldl_lines bound m cols hb1 hb2 text ⟨[], [], 0, 0⟩
    (by intro c hc; simp at hc) (by simpa using hw) (lines_within_nil bound (by omega))
  obtain ⟨hl2, _⟩ := break_lines_step_lines bound m cols hb1 hb2 _ 32
    (Or.inr (Or.inl rfl)) hwl hl
  have hfin := lines_within_newline bound _ _ hl2
  have hbl : break_lines text cols
      = (break_lines_step cols (text.foldl (break_lines_step cols) ⟨[], [], 0, 0⟩) 32).output
          ++ [10] := by
    simp [break_lines, List.foldl_append]
  rw [hbl]
  intro line hline
  obtain ⟨h, rest, heq, hpre, hh, hrest⟩ := splitOnP_runs (fun y => y == 10)
    ((break_lines_step cols (text.foldl (break_lines_step cols) ⟨[], [], 0, 0⟩) 32).output
      ++ [10])
  have hline' : line ∈ h :: rest := by rw [← heq]; exact hline
  rcases List.mem_cons.mp hline' with rfl | hr
  · exact hfin.1 _ hpre.isInfix (fun hm10 => by simpa using hh 10 hm10)
  · exact hfin.1 _ (hrest line hr).1 (fun hm10 => by simpa using (hrest line hr).2 10 hm10)

/-- C11 as stated fails: with `cols = 3` the text `"abc-def"`, whose words `"abc"` and
`"def"` are three characters long, is wrapped to `"abc\n-def\n"`, and the line `"-def"` is
four characters long. -/
theorem break_lines_hyphen_overflow :
    break_lines (str "abc-def") 3 = str "abc\n-def\n" ∧
    (∀ w ∈ (str "abc-def").splitOnP is_separator, (w.length : Int) ≤ 3) ∧
    str "-def" ∈ (break_lines (str "abc-def") 3).splitOn 10 ∧
    (3 : Int) < ((str "-def").length : Int) := by
  decide

/-- C11 amended: for every `cols > 0` and every text whose words (maximal runs of
characters other than space, newline, hyphen and forward slash) are each shorter than
`cols`, every newline-delimited line of `break_lines(text, cols)` is at most `cols`
characters long. -/
theorem break_lines_line_width (text : List Int) (cols : Int) (_hc : 0 < cols)
    (hw : ∀ w ∈ text.splitOnP is_separator, (w.length : Int) < cols) :
    ∀ line ∈ (break_lines text cols).splitOn 10, (line.length : Int) ≤ cols :=
  break_lines_lines_le cols (cols - 1) cols (le_refl _) (by omega) text
    (fun w hmem => by have := hw w hmem; omega)

theorem break_lines_line_width_witness :
    (0 : Int) < 6 ∧
    (∀ w ∈ (str "to be-or not/to be").splitOnP is_separator, (w.length : Int) < 6) ∧
    (∀ line ∈ (break_lines (str "to be-or not/to be") 6).splitOn 10,
      (line.length : Int) ≤ 6) ∧
    break_lines (str "to be-or not/to be") 6 = str "to be-\nor not\n/to be\n" :=
  ⟨by decide, by decide, break_lines_line_width _ _ (by decide) (by decide), by decide⟩

/-- With words of up to `cols` characters every line of `break_lines(text, cols)` has at
most `cols + 1` characters. -/
theorem break_lines_line_width_plus_one (text : List Int) (cols : Int)
    (hw : ∀ w ∈ text.splitOnP is_separator, (w.length : Int) ≤ cols) :
    ∀ line ∈ (break_lines text cols).splitOn 10, (line.length : Int) ≤ cols + 1 :=
  break_lines_lines_le (cols + 1) cols cols (by omega) (le_refl _) text hw

/-- C12 at a failing input: with the default `cols = -1` (and with `cols = 0`) the text
`"a b"` is wrapped to `"a\nb\n"`, a line break being inserted between the two words, and
not left as `"a b\n"`. -/
theorem break_lines_default_cols_wraps :
    break_lines (str "a b") (-1) = str "a\nb\n" ∧
    break_lines (str "a b") 0 = str "a\nb\n" ∧
    break_lines (str "a b") (-1) ≠ str "a b\n" := by
  decide

/-- C13 at a failing input: with `cols = 10` the text `"-a"` is wrapped to `"a\n"`: the
hyphen is lost, so the characters other than spaces and newlines differ from those of the
text. -/
theorem break_lines_drops_hyphen :
    break_lines (str "-a") 10 = str "a\n" ∧
    (break_lines (str "-a") 10).filter (fun y => !(y == 32 || y == 10))
      ≠ (str "-a").filter (fun y => !(y == 32 || y == 10)) := by
  decide

/-! ## A number too large for `int` in the key (C17) -/

/-- C17 at a failing input: on the key string `"99999999999"` `stoi` raises `out_of_range`,
which `parse_key` does not catch, so `parse_key` returns no key sequence; the same happens
when the token stands between valid ones. -/
theorem parse_key_out_of_range :
    stoi (str "99999999999") = StoiResult.out_of_range ∧
    parse_key (str "99999999999") false = none ∧
    parse_key (str "1,99999999999,A") false = none := by
  decide

/-! ## Keys congruent modulo 26 (C16) -/

theorem key_shift_congr (key key' : List Int)
    (h : List.Forall₂ (fun a b : Int => a % 26 = b % 26) key key') (i : Int) :
    key_shift key i % 26 = key_shift key' i % 26 := by
  have hget : ∀ n : Nat, key.getD n 0 % 26 = key'.getD n 0 % 26 := by
    induction h with
    | nil => intro n; rfl
    | cons hab _ ih =>
      intro n
      cases n with
      | zero => simpa using hab
      | succ m => simpa using ih m
  have hlen : key.length = key'.length := h.length_eq
  simp only [key_shift, hlen]
  exact hget _

theorem cipher_char_congr (key key' : List Int)
    (h : List.Forall₂ (fun a b : Int => a % 26 = b % 26) key key')
    (hr : ∀ k ∈ key, -2147483648 ≤ k ∧ k ≤ 2147483622)
    (hr' : ∀ k ∈ key', -2147483648 ≤ k ∧ k ≤ 2147483622) (i x : Int) :
    cipher_char key i x = cipher_char key' i x := by
  have hs := key_shift_congr key key' h i
  have hb := key_shift_bounds key _ _ (by decide) (by decide) hr i
  have hb' := key_shift_bounds key' _ _ (by decide) (by decide) hr' i
  by_cases hu : 65 ≤ x ∧ x ≤ 90
  · rw [cipher_char_upper key i x hu, cipher_char_upper key' i x hu,
      wrap_int_of_fits _ (by omega) (by omega), wrap_int_of_fits _ (by omega) (by omega)]
    omega
  · by_cases hl : 97 ≤ x ∧ x ≤ 122
    · rw [cipher_char_lower key i x hl, cipher_char_lower key' i x hl,
        wrap_int_of_fits _ (by omega) (by omega), wrap_int_of_fits _ (by omega) (by omega)]
      omega
    · have hn := (is_letter_false_iff x).mpr ⟨hu, hl⟩
      rw [cipher_char_other key i x hn, cipher_char_other key' i x hn]

theorem cipher_text_congr (key key' : List Int)
    (h : List.Forall₂ (fun a b : Int => a % 26 = b % 26) key key')
    (hr : ∀ k ∈ key, -2147483648 ≤ k ∧ k ≤ 2147483622)
    (hr' : ∀ k ∈ key', -2147483648 ≤ k ∧ k ≤ 2147483622) :
    ∀ (text : List Int) (i : Int), cipher_text key text i = cipher_text key' text i := by
  intro text
  induction text with
  | nil => intro i; rfl
  | cons x rest ih =>
    intro i
    rw [cipher_text, cipher_text, ih, cipher_char_congr key key' h hr hr']

/-- C16 as stated fails: the keys `[2147483647]` and `[23]` are congruent modulo 26, yet
on `"Z"` the first gives `"A"` (the sum `25 + 2147483647` leaves the `int` range) and the
second `"W"`. -/
theorem vigenere_key_mod_26_overflow :
    (2147483647 : Int) % 26 = 23 % 26 ∧
    vigenere (str "Z") [2147483647] 0 = some (str "A", 1) ∧
    vigenere (str "Z") [23] 0 = some (str "W", 1) ∧
    vigenere (str "Z") [2147483647] 0 ≠ vigenere (str "Z") [23] 0 := by
  decide

/-- C16 amended: for every text, counter `c >= 0` and any two non-empty keys of the same
length whose corresponding elements are congruent modulo 26 and all lie in
`-2147483648 .. 2147483622` (so that `code - base + key` fits in an `int`), negative
values included, `vigenere` returns the same result (text and final counter) under both
keys. -/
theorem vigenere_key_mod_26 (text key key' : List Int) (c : Int) (hk : key ≠ [])
    (hk' : key' ≠ []) (hc : 0 ≤ c)
    (hcong : List.Forall₂ (fun a b : Int => a % 26 = b % 26) key key')
    (hr : ∀ k ∈ key, -2147483648 ≤ k ∧ k ≤ 2147483622)
    (hr' : ∀ k ∈ key', -2147483648 ≤ k ∧ k ≤ 2147483622) :
    vigenere text key c = vigenere text key' c := by
  rw [vigenere_eq key hk text c hc, vigenere_eq key' hk' text c hc,
    cipher_text_congr key key' hcong hr hr']

theorem vigenere_key_mod_26_witness :
    ([3, -1, 100] : List Int) ≠ [] ∧ ([29, 25, -2147483602] : List Int) ≠ [] ∧ (0 : Int) ≤ 4 ∧
    List.Forall₂ (fun a b : Int => a % 26 = b % 26) [3, -1, 100] [29, 25, -2147483602] ∧
    (∀ k ∈ ([3, -1, 100] : List Int), -2147483648 ≤ k ∧ k ≤ 2147483622) ∧
    (∀ k ∈ ([29, 25, -2147483602] : List Int), -2147483648 ≤ k ∧ k ≤ 2147483622) ∧
    vigenere (str "Modular Keys!") [3, -1, 100] 4
      = vigenere (str "Modular Keys!") [29, 25, -2147483602] 4 :=
  ⟨by decide, by decide, by decide,
    List.Forall₂.cons (by decide) (List.Forall₂.cons (by decide)
      (List.Forall₂.cons (by decide) List.Forall₂.nil)),
    by decide, by decide,
    vigenere_key_mod_26 _ _ _ _ (by decide) (by decide) (by decide)
      (List.Forall₂.cons (by decide) (List.Forall₂.cons (by decide)
        (List.Forall₂.cons (by decide) List.Forall₂.nil)))
      (by decide) (by decide)⟩

/-! ## Safety of the cipher (C20) -/

end CiphersCPP
